import Mathlib

/-!
# Verification of the Project-Nova call-graph viewers and graph pipeline

This file gives a shallow embedding of the graph data model and of the
operations of the Project-Nova repository that the specification talks
about, and proves (or refutes) the specification's claims about them.

Embedded from the JavaScript sources:
* `getConnectedNodes` — the upward (callers-only) breadth-first lineage
  traversal of the improved CFG viewer;
* the filter / search / selection / edge-trimming render pipeline of the
  improved CFG viewer (`filterByMode`, `displayedNodes`, `nodeView`,
  `renderEdges`, `reportedStats`, `viewerGateError`);
* `calculateMaxDepth` — the BFS depth statistic of `ControlFlowGraph.jsx`.

Modelling conventions:
* JavaScript `Set` objects are modelled as `List String` used only through
  membership; insertion mirrors the source's insertion order.
* JavaScript string `toLowerCase` is modelled by `jsToLower` (ASCII case
  folding), and substring `includes` by `strContains`.
* The unbounded `while (queue.length > 0)` loops are modelled with an
  explicit fuel argument chosen large enough (one unit per loop iteration;
  each visit enqueues at most one entry per edge, and each id is visited at
  most once) that the fuel is never exhausted on the states reachable from
  the entry points; the correctness lemmas track the needed bound.
* The backend Graph Assembler statistics and the Graph Sizer are not part
  of the visible sources; they are modelled from the specification where
  marked, and the corresponding results are spec-modelled.
-/

/-- A call edge of the project graph: `{from, to, file}` in the source
JSON schema (`from`/`to` are rendered here as `efrom`/`eto` because `from`
is a reserved word). -/
structure GraphEdge where
  efrom : String
  eto : String
  file : String
  deriving DecidableEq, Repr

/-- A node of the project graph, following the result schema consumed by
the viewers (`label` and `file` are optional in the viewers, which guard
them with `?.`). -/
structure GraphNode where
  id : String
  label : Option String
  file : Option String
  line : Option Nat
  connected : Bool
  external : Bool
  is_method : Bool
  is_async : Bool
  is_private : Bool
  is_static : Bool
  is_template : Bool
  defined_in_files : Nat
  deriving DecidableEq, Repr

/-- The backend `stats` object of a `ProjectGraph`. -/
structure Stats where
  total_functions : Nat
  displayed_functions : Nat
  total_calls : Nat
  connected_functions : Nat
  isolated_functions : Nat
  external_references : Nat
  files_processed : Nat
  static_functions : Nat
  template_functions : Nat
  class_methods : Nat
  deriving DecidableEq, Repr

/-- The graph payload handed to the viewers: nodes, edges, stats and the
non-fatal annotation lists (`warnings`, `parse_errors`); `errors` is the
field the improved viewer reads for its fallback error message. -/
structure ProjectGraph where
  nodes : List GraphNode
  edges : List GraphEdge
  stats : Stats
  warnings : List String
  parse_errors : List String
  errors : List String
  deriving DecidableEq, Repr

/-! ## String helpers (JS `toLowerCase` / `includes`) -/

/-- ASCII case folding of one character, as JS `toLowerCase` acts on the
ASCII identifiers and paths occurring in graphs. -/
def lowerChar (c : Char) : Char :=
  if 'A' ≤ c ∧ c ≤ 'Z' then Char.ofNat (c.toNat + 32) else c

/-- Model of JavaScript `String.prototype.toLowerCase` (ASCII fragment). -/
def jsToLower (s : String) : String := String.mk (s.data.map lowerChar)

/-- `strStarts needle hay` holds when `needle` is an initial segment of
`hay`. -/
def strStarts : List Char → List Char → Bool
  | [], _ => true
  | _ :: _, [] => false
  | a :: as, b :: bs => a == b && strStarts as bs

/-- `strHas needle hay`: `needle` occurs contiguously somewhere in `hay`. -/
def strHas (needle : List Char) : List Char → Bool
  | [] => needle.isEmpty
  | c :: rest => strStarts needle (c :: rest) || strHas needle rest

/-- Model of JavaScript `String.prototype.includes`. -/
def strContains (hay needle : String) : Bool := strHas needle.data hay.data

/-! ## The lineage (callers-only) BFS of the improved viewer

Source (`ImprovedCFGViewer`): `getConnectedNodes(nodeId, edges)` keeps a
`connected` set seeded with `nodeId`, a FIFO `queue` seeded with `nodeId`
and a `visited` set; while the queue is non-empty it dequeues `current`,
skips it when already visited, marks it visited, and for every edge with
`edge.to === current` whose `edge.from` is not yet in `connected` it adds
`edge.from` to `connected` and enqueues it. -/

/-- The inner `edges.forEach` body of `getConnectedNodes` for one dequeued
`current`: returns the grown `connected` list and the list of newly pushed
ids, in edge order. -/
def lineageScan (current : String) (connected : List String) :
    List GraphEdge → List String × List String
  | [] => (connected, [])
  | e :: rest =>
    if e.eto == current && !(connected.contains e.efrom) then
      let p := lineageScan current (connected ++ [e.efrom]) rest
      (p.1, e.efrom :: p.2)
    else
      lineageScan current connected rest

/-- The `while (queue.length > 0)` loop of `getConnectedNodes`, with fuel
(one unit per iteration). -/
def bfsLineage (edges : List GraphEdge) :
    Nat → List String → List String → List String → List String
  | _, connected, _, [] => connected
  | 0, connected, _, _ :: _ => connected
  | fuel + 1, connected, visited, current :: rest =>
    if visited.contains current then
      bfsLineage edges fuel connected visited rest
    else
      let p := lineageScan current connected edges
      bfsLineage edges fuel p.1 (visited ++ [current]) (rest ++ p.2)

/-- Every id the lineage BFS can ever touch: the start node plus every
edge source. -/
def lineageUniv (nodeId : String) (edges : List GraphEdge) : List String :=
  nodeId :: edges.map (fun e => e.efrom)

/-- `getConnectedNodes(nodeId, edges)` of the improved viewer: the set
containing `nodeId` and everything reached by walking edges backward
(`edge.to == current → include edge.from`). The fuel bound covers one
iteration per queue entry: at most `|edges|` pushes per visited id, at
most `|lineageUniv|` visits, plus the initial entry and the final check. -/
def getConnectedNodes (nodeId : String) (edges : List GraphEdge) : List String :=
  bfsLineage edges
    ((lineageUniv nodeId edges).length * (edges.length + 1) + 1)
    [nodeId] [] [nodeId]

/-- One backward step along a call edge: `callerStep edges a b` holds when
some edge has target `a` and source `b` (i.e. `b` directly calls `a`). -/
def callerStep (edges : List GraphEdge) (a b : String) : Prop :=
  ∃ e ∈ edges, e.eto = a ∧ e.efrom = b

/-- `x` is `target` itself or a transitive caller of `target`. -/
def CallerReach (edges : List GraphEdge) (target x : String) : Prop :=
  Relation.ReflTransGen (callerStep edges) target x

example : getConnectedNodes "g"
    [⟨"f", "g", "a.c"⟩, ⟨"g", "h", "a.c"⟩, ⟨"e", "f", "a.c"⟩] = ["g", "f", "e"] := by
  decide

/-! ## Correctness of the lineage BFS -/

theorem contains_mem {l : List String} {a : String} :
    l.contains a = true ↔ a ∈ l := List.elem_iff

theorem contains_eq_false {l : List String} {a : String} :
    l.contains a = false ↔ a ∉ l := by
  constructor
  · intro h hmem
    rw [contains_mem.mpr hmem] at h
    cases h
  · intro h
    cases hc : l.contains a with
    | false => rfl
    | true => exact absurd (contains_mem.mp hc) h
theorem lineageScan_fst (current : String) :
    ∀ (es : List GraphEdge) (connected : List String),
    (lineageScan current connected es).1 =
      connected ++ (lineageScan current connected es).2 := by
  intro es
  induction es with
  | nil => intro connected; simp [lineageScan]
  | cons e rest ih =>
    intro connected
    simp only [lineageScan]
    by_cases h : (e.eto == current && !(connected.contains e.efrom)) = true
    · rw [if_pos h]
      simp only []
      rw [ih (connected ++ [e.efrom])]
      simp
    · rw [if_neg h]
      exact ih connected

theorem lineageScan_snd_mem (current : String) :
    ∀ (es : List GraphEdge) (connected : List String) (x : String),
    x ∈ (lineageScan current connected es).2 →
      ∃ e ∈ es, e.eto = current ∧ e.efrom = x := by
  intro es
  induction es with
  | nil => intro connected x hx; simp [lineageScan] at hx
  | cons e rest ih =>
    intro connected x hx
    simp only [lineageScan] at hx
    by_cases h : (e.eto == current && !(connected.contains e.efrom)) = true
    · rw [if_pos h] at hx
      simp only [] at hx
      rcases List.mem_cons.mp hx with hx | hx
      · exact ⟨e, List.mem_cons_self e rest,
          beq_iff_eq.mp (Bool.and_elim_left h), hx.symm⟩
      · obtain ⟨e', he', h1, h2⟩ := ih (connected ++ [e.efrom]) x hx
        exact ⟨e', List.mem_cons_of_mem e he', h1, h2⟩
    · rw [if_neg h] at hx
      obtain ⟨e', he', h1, h2⟩ := ih connected x hx
      exact ⟨e', List.mem_cons_of_mem e he', h1, h2⟩

theorem lineageScan_closure (current : String) :
    ∀ (es : List GraphEdge) (connected : List String),
    ∀ e ∈ es, e.eto = current →
      e.efrom ∈ (lineageScan current connected es).1 := by
  intro es
  induction es with
  | nil => intro connected e he; simp at he
  | cons e0 rest ih =>
    intro connected e he heto
    simp only [lineageScan]
    by_cases h : (e0.eto == current && !(connected.contains e0.efrom)) = true
    · rw [if_pos h]
      simp only []
      rcases List.mem_cons.mp he with rfl | he'
      · rw [lineageScan_fst]
        exact List.mem_append_left _ (List.mem_append_right _ (List.mem_singleton.mpr rfl))
      · exact ih (connected ++ [e0.efrom]) e he' heto
    · rw [if_neg h]
      rcases List.mem_cons.mp he with rfl | he'
      · have hbeq : (e.eto == current) = true := beq_iff_eq.mpr heto
        have hcont : (!(connected.contains e.efrom)) = false := by
          cases hc : (!(connected.contains e.efrom)) with
          | false => rfl
          | true => exact absurd (by rw [hbeq, hc]; rfl) h
        have : e.efrom ∈ connected := by
          rw [Bool.not_eq_false'] at hcont
          exact contains_mem.mp hcont
        rw [lineageScan_fst]
        exact List.mem_append_left _ this
      · exact ih connected e he' heto

theorem lineageScan_snd_length (current : String) :
    ∀ (es : List GraphEdge) (connected : List String),
    (lineageScan current connected es).2.length ≤ es.length := by
  intro es
  induction es with
  | nil => intro connected; simp [lineageScan]
  | cons e rest ih =>
    intro connected
    simp only [lineageScan]
    by_cases h : (e.eto == current && !(connected.contains e.efrom)) = true
    · rw [if_pos h]
      simpa using Nat.succ_le_succ (ih (connected ++ [e.efrom]))
    · rw [if_neg h]
      exact Nat.le_succ_of_le (ih connected)

/-- The ids of `lineageUniv` not yet visited; the primary component of the
fuel bound. -/
def unvisited (univ visited : List String) : Nat :=
  (univ.filter (fun x => !visited.contains x)).length

theorem unvisited_lt (univ visited : List String) (x : String)
    (hx : x ∈ univ) (hnx : x ∉ visited) :
    unvisited univ (visited ++ [x]) < unvisited univ visited := by
  unfold unvisited
  have heq : univ.filter (fun y => !(visited ++ [x]).contains y)
      = List.filter (fun y => !(y == x)) (univ.filter (fun y => !visited.contains y)) := by
    rw [List.filter_filter]
    apply List.filter_congr
    intro y _
    rw [Bool.eq_iff_iff]
    simp only [Bool.and_eq_true, Bool.not_eq_true', beq_eq_false_iff_ne,
      contains_eq_false, List.mem_append, List.mem_singleton]
    tauto
  rw [heq]
  apply List.length_filter_lt_length_iff_exists.mpr
  refine ⟨x, List.mem_filter.mpr ⟨hx, ?_⟩, by simp⟩
  rw [Bool.not_eq_true', contains_eq_false]
  exact hnx

theorem fuel_step (u u' E q p fuel : Nat) (hu : u' < u) (hp : p ≤ E)
    (h : u * (E + 1) + (q + 1) ≤ fuel + 1) :
    u' * (E + 1) + (q + p) ≤ fuel := by
  cases u with
  | zero => omega
  | succ s =>
    have hu' : u' ≤ s := Nat.lt_succ_iff.mp hu
    rw [Nat.succ_mul] at h
    have h1 : u' * (E + 1) ≤ s * (E + 1) := Nat.mul_le_mul_right _ hu'
    linarith

/-- Invariant-carrying correctness of the lineage BFS loop: with enough
fuel for the remaining work, the returned list extends `connected`, is
sound (everything in it backward-reaches from `nodeId`), and is closed
under one backward step along any edge. -/
theorem bfsLineage_spec (edges : List GraphEdge) (univ : List String) (nodeId : String)
    (he : ∀ e ∈ edges, e.efrom ∈ univ) :
    ∀ (fuel : Nat) (connected visited queue : List String),
    unvisited univ visited * (edges.length + 1) + queue.length ≤ fuel →
    (∀ x ∈ queue, x ∈ univ) →
    (∀ x ∈ queue, x ∈ connected) →
    (∀ x ∈ connected, CallerReach edges nodeId x) →
    (∀ x ∈ connected, x ∈ visited ∨ x ∈ queue) →
    (∀ x ∈ visited, ∀ e ∈ edges, e.eto = x → e.efrom ∈ connected) →
    (∀ x ∈ connected, x ∈ bfsLineage edges fuel connected visited queue) ∧
    (∀ x ∈ bfsLineage edges fuel connected visited queue, CallerReach edges nodeId x) ∧
    (∀ x ∈ bfsLineage edges fuel connected visited queue,
      ∀ e ∈ edges, e.eto = x → e.efrom ∈ bfsLineage edges fuel connected visited queue) := by
  intro fuel
  induction fuel with
  | zero =>
    intro connected visited queue hfuel hq hqc hs hc1 hc2
    have hq0 : queue.length = 0 := by
      have := Nat.le_zero.mp hfuel
      omega
    have hqe : queue = [] := List.length_eq_zero.mp hq0
    subst hqe
    refine ⟨fun x hx => hx, hs, fun x hx e hee heto => ?_⟩
    have hxv : x ∈ visited := by
      rcases hc1 x hx with h | h
      · exact h
      · cases h
    exact hc2 x hxv e hee heto
  | succ fuel ih =>
    intro connected visited queue hfuel hq hqc hs hc1 hc2
    cases queue with
    | nil =>
      refine ⟨fun x hx => hx, hs, fun x hx e hee heto => ?_⟩
      have hxv : x ∈ visited := by
        rcases hc1 x hx with h | h
        · exact h
        · cases h
      exact hc2 x hxv e hee heto
    | cons current rest =>
      by_cases hv : visited.contains current = true
      · simp only [bfsLineage]
        rw [if_pos hv]
        apply ih connected visited rest
        · have : (current :: rest).length = rest.length + 1 := rfl
          rw [this] at hfuel
          omega
        · exact fun x hx => hq x (List.mem_cons_of_mem _ hx)
        · exact fun x hx => hqc x (List.mem_cons_of_mem _ hx)
        · exact hs
        · intro x hx
          rcases hc1 x hx with h | h
          · exact Or.inl h
          · rcases List.mem_cons.mp h with rfl | h
            · exact Or.inl (contains_mem.mp hv)
            · exact Or.inr h
        · exact hc2
      · simp only [bfsLineage]
        rw [if_neg hv]
        have hfst := lineageScan_fst current edges connected
        have hcur_univ : current ∈ univ := hq current (List.mem_cons_self _ _)
        have hcur_conn : current ∈ connected := hqc current (List.mem_cons_self _ _)
        have hcur_nvis : current ∉ visited := by
          intro hmem
          exact hv (contains_mem.mpr hmem)
        have hu_lt := unvisited_lt univ visited current hcur_univ hcur_nvis
        have hlen := lineageScan_snd_length current edges connected
        have h1 : unvisited univ (visited ++ [current]) * (edges.length + 1) +
            (rest ++ (lineageScan current connected edges).2).length ≤ fuel := by
          rw [List.length_append]
          apply fuel_step _ _ _ _ _ _ hu_lt hlen
          have : (current :: rest).length = rest.length + 1 := rfl
          rw [this] at hfuel
          exact hfuel
        have h2 : ∀ x ∈ rest ++ (lineageScan current connected edges).2, x ∈ univ := by
          intro x hx
          rcases List.mem_append.mp hx with h | h
          · exact hq x (List.mem_cons_of_mem _ h)
          · obtain ⟨e, hee, _, hef⟩ := lineageScan_snd_mem current edges connected x h
            rw [← hef]
            exact he e hee
        have h3 : ∀ x ∈ rest ++ (lineageScan current connected edges).2,
            x ∈ (lineageScan current connected edges).1 := by
          intro x hx
          rw [hfst]
          rcases List.mem_append.mp hx with h | h
          · exact List.mem_append_left _ (hqc x (List.mem_cons_of_mem _ h))
          · exact List.mem_append_right _ h
        have h4 : ∀ x ∈ (lineageScan current connected edges).1, CallerReach edges nodeId x := by
          intro x hx
          rw [hfst] at hx
          rcases List.mem_append.mp hx with h | h
          · exact hs x h
          · obtain ⟨e, hee, heto, hef⟩ := lineageScan_snd_mem current edges connected x h
            exact Relation.ReflTransGen.tail (hs current hcur_conn) ⟨e, hee, heto, hef⟩
        have h5 : ∀ x ∈ (lineageScan current connected edges).1,
            x ∈ visited ++ [current] ∨ x ∈ rest ++ (lineageScan current connected edges).2 := by
          intro x hx
          rw [hfst] at hx
          rcases List.mem_append.mp hx with h | h
          · rcases hc1 x h with h' | h'
            · exact Or.inl (List.mem_append_left _ h')
            · rcases List.mem_cons.mp h' with rfl | h'
              · exact Or.inl (List.mem_append_right _ (List.mem_singleton.mpr rfl))
              · exact Or.inr (List.mem_append_left _ h')
          · exact Or.inr (List.mem_append_right _ h)
        have h6 : ∀ x ∈ visited ++ [current], ∀ e ∈ edges, e.eto = x →
            e.efrom ∈ (lineageScan current connected edges).1 := by
          intro x hx e hee heto
          rcases List.mem_append.mp hx with h | h
          · rw [hfst]
            exact List.mem_append_left _ (hc2 x h e hee heto)
          · rw [List.mem_singleton.mp h] at heto
            exact lineageScan_closure current edges connected e hee heto
        have H := ih (lineageScan current connected edges).1 (visited ++ [current])
          (rest ++ (lineageScan current connected edges).2) h1 h2 h3 h4 h5 h6
        refine ⟨fun x hx => H.1 x ?_, H.2.1, H.2.2⟩
        rw [hfst]
        exact List.mem_append_left _ hx

/-- Membership in `getConnectedNodes` is exactly backward reachability:
the node itself together with its transitive callers. -/
theorem mem_getConnectedNodes (nodeId : String) (edges : List GraphEdge) (x : String) :
    x ∈ getConnectedNodes nodeId edges ↔ CallerReach edges nodeId x := by
  have he : ∀ e ∈ edges, e.efrom ∈ lineageUniv nodeId edges := by
    intro e hee
    exact List.mem_cons_of_mem _ (List.mem_map_of_mem _ hee)
  have hu0 : unvisited (lineageUniv nodeId edges) [] = (lineageUniv nodeId edges).length := by
    unfold unvisited
    have : ∀ y : String, (!([] : List String).contains y) = true := fun y => rfl
    rw [List.filter_eq_self.mpr (fun y _ => this y)]
  have h := bfsLineage_spec edges (lineageUniv nodeId edges) nodeId he
    ((lineageUniv nodeId edges).length * (edges.length + 1) + 1)
    [nodeId] [] [nodeId]
    (by rw [hu0]; simp)
    (fun x hx => by rw [List.mem_singleton.mp hx]; exact List.mem_cons_self _ _)
    (fun x hx => hx)
    (fun x hx => by rw [List.mem_singleton.mp hx]; exact Relation.ReflTransGen.refl)
    (fun x hx => Or.inr hx)
    (fun x hx => by cases hx)
  constructor
  · exact fun hx => h.2.1 x hx
  · intro hr
    unfold CallerReach at hr
    induction hr with
    | refl => exact h.1 nodeId (List.mem_singleton.mpr rfl)
    | tail hab hstep ihr =>
      obtain ⟨e, hee, heto, hef⟩ := hstep
      have := h.2.2 _ ihr e hee heto
      rw [hef] at this
      exact this

/-! ## The improved viewer render pipeline

Source (`ImprovedCFGViewer`): the effect filters `cfg.nodes` by the filter
mode, optionally intersects with the search expansion, maps each node to a
styled vis-network node (selection only changes styling), and keeps only
edges with both endpoints among the displayed node ids. -/

/-- The three filter modes of the improved viewer: `'all'`, `'connected'`,
`'public'`. -/
inductive FilterMode where
  | all
  | connectedOnly
  | publicOnly
  deriving DecidableEq, Repr

/-- `filterMode === 'connected' → n.connected`,
`filterMode === 'public' → !n.is_private`, otherwise all of `cfg.nodes`. -/
def filterByMode (cfg : ProjectGraph) (mode : FilterMode) : List GraphNode :=
  match mode with
  | .all => cfg.nodes
  | .connectedOnly => cfg.nodes.filter (fun n => n.connected)
  | .publicOnly => cfg.nodes.filter (fun n => !n.is_private)

/-- `n.label?.toLowerCase().includes(term) || n.file?.toLowerCase().includes(term)`
for an already-lowercased `t`. -/
def matchesNode (t : String) (n : GraphNode) : Bool :=
  (match n.label with
   | some l => strContains (jsToLower l) t
   | none => false) ||
  (match n.file with
   | some f => strContains (jsToLower f) t
   | none => false)

/-- The search expansion set: for each node matching the lowercased term,
all ids of its lineage (`getConnectedNodes`), unioned. -/
def searchIds (cfg : ProjectGraph) (t : String) : List String :=
  (cfg.nodes.filter (matchesNode t)).flatMap (fun m => getConnectedNodes m.id cfg.edges)

/-- `filteredNodes` of the improved viewer: the mode filter, then (for a
non-empty search term) restriction to the search expansion set. -/
def displayedNodes (cfg : ProjectGraph) (mode : FilterMode) (searchTerm : String) :
    List GraphNode :=
  let filtered := filterByMode cfg mode
  if searchTerm == "" then filtered
  else filtered.filter (fun n => (searchIds cfg (jsToLower searchTerm)).contains n.id)

/-- The styling-relevant parts of one vis-network node built by the
improved viewer (opacity is recorded in percent: the source uses `0.2`
and `1`). -/
structure NodeView where
  id : String
  label : String
  shape : String
  background : String
  border : String
  fontColor : String
  borderWidth : Nat
  opacityPct : Nat
  shadow : Bool
  deriving DecidableEq, Repr

/-- JS `a || b` on an optional string (empty string is falsy). -/
def jsOrDefault (o : Option String) (d : String) : String :=
  match o with
  | some s => if s == "" then d else s
  | none => d

/-- The color branch of the improved viewer: external → gray, isolated →
orange, method → purple, async → teal, private → yellow, else default. -/
def nodeBaseColor (n : GraphNode) : String × String :=
  if n.external then ("#6b7280", "#4b5563")
  else if !n.connected then ("#f59e0b", "#d97706")
  else if n.is_method then ("#8b5cf6", "#7c3aed")
  else if n.is_async then ("#14b8a6", "#0d9488")
  else if n.is_private then ("#eab308", "#ca8a04")
  else ("#667eea", "#4c51bf")

/-- Shape branch: external → ellipse, method → diamond, else box. -/
def nodeShape (n : GraphNode) : String :=
  if n.external then "ellipse"
  else if n.is_method then "diamond"
  else "box"

/-- One displayed node with selection-dependent styling (`isDimmed` /
`isHighlighted` of the source). -/
def nodeView (sel : Option String) (connSel : List String) (n : GraphNode) : NodeView :=
  let isDimmed := sel.isSome && !(connSel.contains n.id)
  let isHighlighted := sel.isSome && connSel.contains n.id
  let c := nodeBaseColor n
  { id := n.id
    label := jsOrDefault n.label n.id
    shape := nodeShape n
    background := if isDimmed then "#4b5563" else c.1
    border := if isDimmed then "#374151" else c.2
    fontColor := if isDimmed then "#6b7280" else "#ffffff"
    borderWidth := if isHighlighted then 4 else 2
    opacityPct := if isDimmed then 20 else 100
    shadow := !isDimmed }

/-- `connectedToSelected` of the source: the lineage of the selected node,
or the empty set when nothing is selected. -/
def selectionSet (cfg : ProjectGraph) (sel : Option String) : List String :=
  match sel with
  | some s => getConnectedNodes s cfg.edges
  | none => []

/-- The displayed, styled node list. -/
def renderNodes (cfg : ProjectGraph) (mode : FilterMode) (searchTerm : String)
    (sel : Option String) : List NodeView :=
  (displayedNodes cfg mode searchTerm).map (nodeView sel (selectionSet cfg sel))

/-- The ids of the displayed nodes (the `nodeIds` set of the source). -/
def renderNodeIds (cfg : ProjectGraph) (mode : FilterMode) (searchTerm : String)
    (sel : Option String) : List String :=
  (renderNodes cfg mode searchTerm sel).map (fun v => v.id)

/-- `validEdges`: only edges whose both endpoints are displayed. -/
def renderEdges (cfg : ProjectGraph) (mode : FilterMode) (searchTerm : String)
    (sel : Option String) : List GraphEdge :=
  cfg.edges.filter (fun e =>
    (renderNodeIds cfg mode searchTerm sel).contains e.efrom &&
    (renderNodeIds cfg mode searchTerm sel).contains e.eto)

/-- The stats object the improved viewer reports:
`{displayedNodes, displayedEdges, totalNodes, totalEdges, ...cfg.stats}`. -/
structure ViewStats where
  displayedNodes : Nat
  displayedEdges : Nat
  totalNodes : Nat
  totalEdges : Nat
  total_functions : Nat
  displayed_functions : Nat
  total_calls : Nat
  connected_functions : Nat
  isolated_functions : Nat
  external_references : Nat
  files_processed : Nat
  static_functions : Nat
  template_functions : Nat
  class_methods : Nat
  deriving DecidableEq, Repr

/-- `setStats({displayedNodes: nodes.length, displayedEdges:
validEdges.length, totalNodes: cfg.nodes.length, totalEdges:
cfg.edges.length, ...cfg.stats})` of the improved viewer. -/
def reportedStats (cfg : ProjectGraph) (mode : FilterMode) (searchTerm : String)
    (sel : Option String) : ViewStats :=
  { displayedNodes := (renderNodes cfg mode searchTerm sel).length
    displayedEdges := (renderEdges cfg mode searchTerm sel).length
    totalNodes := cfg.nodes.length
    totalEdges := cfg.edges.length
    total_functions := cfg.stats.total_functions
    displayed_functions := cfg.stats.displayed_functions
    total_calls := cfg.stats.total_calls
    connected_functions := cfg.stats.connected_functions
    isolated_functions := cfg.stats.isolated_functions
    external_references := cfg.stats.external_references
    files_processed := cfg.stats.files_processed
    static_functions := cfg.stats.static_functions
    template_functions := cfg.stats.template_functions
    class_methods := cfg.stats.class_methods }

/-- The initial guard shared by all three viewers:
`if (!cfg || !cfg.nodes || cfg.nodes.length === 0)
   setError(cfg?.errors?.[0] || 'No graph data available')`.
Returns the error-state message, or `none` when the viewer proceeds to
render. -/
def viewerGateError : Option ProjectGraph → Option String
  | none => some "No graph data available"
  | some g =>
    if g.nodes.isEmpty then some (g.errors.head?.getD "No graph data available")
    else none

/-! ## `calculateMaxDepth` of `ControlFlowGraph.jsx`

Source: builds a successor map over the given nodes (only edges whose
`from` is a known node contribute), finds the roots (nodes with no
incoming edge), returns 0 for an empty node list, `nodes.length` when
there is no root, and otherwise runs a BFS from all roots at depth 1,
incrementing the depth per traversed edge and visiting each node at most
once, returning the maximal depth dequeued. -/

/-- `hasIncoming` of the source: some edge targets `x`. -/
def hasIncomingIds (edges : List GraphEdge) (x : String) : Bool :=
  edges.any (fun e => e.eto == x)

/-- `graph.get(x) || []` of the source: the successors recorded for `x`
(only ids present in the node list have an adjacency entry). -/
def adjList (nodeIds : List String) (edges : List GraphEdge) (x : String) : List String :=
  if nodeIds.contains x then (edges.filter (fun e => e.efrom == x)).map (fun e => e.eto)
  else []

/-- The depth BFS loop of `calculateMaxDepth`, with fuel (one unit per
iteration): dequeue, skip if visited, mark visited, record the depth, and
enqueue unvisited successors at depth + 1. -/
def depthBfs (adj : String → List String) :
    Nat → List String → Nat → List (String × Nat) → Nat
  | _, _, maxDepth, [] => maxDepth
  | 0, _, maxDepth, _ :: _ => maxDepth
  | fuel + 1, visited, maxDepth, (id, depth) :: rest =>
    if visited.contains id then depthBfs adj fuel visited maxDepth rest
    else
      let visited2 := visited ++ [id]
      let pushes := ((adj id).filter (fun nb => !(visited2.contains nb))).map
        (fun nb => (nb, depth + 1))
      depthBfs adj fuel visited2 (max maxDepth depth) (rest ++ pushes)

/-- Every id the depth BFS can ever touch. -/
def depthUniv (nodeIds : List String) (edges : List GraphEdge) : List String :=
  nodeIds ++ edges.map (fun e => e.eto)

/-- The `roots` of `calculateMaxDepth`: nodes with no incoming edge. -/
def rootsOf (nodeIds : List String) (edges : List GraphEdge) : List String :=
  nodeIds.filter (fun x => !(hasIncomingIds edges x))

/-- `calculateMaxDepth(nodes, edges)` of `ControlFlowGraph.jsx`, over the
node ids. The fuel covers one iteration per queue entry: at most `|edges|`
pushes per visited id, at most `|depthUniv|` visits, plus the initial root
entries and the final check. -/
def calculateMaxDepth (nodeIds : List String) (edges : List GraphEdge) : Nat :=
  if nodeIds.length = 0 then 0
  else if (rootsOf nodeIds edges).length = 0 then nodeIds.length
  else
    depthBfs (adjList nodeIds edges)
      ((depthUniv nodeIds edges).length * (edges.length + 1) +
        (rootsOf nodeIds edges).length + 1)
      [] 0 ((rootsOf nodeIds edges).map (fun r => (r, 1)))

example : calculateMaxDepth ["a", "b", "c"]
    [⟨"a", "b", "f"⟩, ⟨"b", "c", "f"⟩] = 3 := by decide

example : calculateMaxDepth ["a", "b"] [⟨"a", "b", "f"⟩, ⟨"b", "a", "f"⟩] = 2 := by
  decide

/-! ## Spec-modelled backend components (Graph Assembler stats, Graph Sizer) -/

/-- Modelled from the spec: §4.4 "`connected` = true iff the node appears
as `from` or `to` of at least one edge". The Graph Assembler is backend
code not present in the visible sources. -/
def nodeConnected (edges : List GraphEdge) (id : String) : Bool :=
  edges.any (fun e => e.efrom == id || e.eto == id)

/-- Modelled from the spec: the §4.4 stats aggregation of the Graph
Assembler (backend code not present in the visible sources):
`total_functions = |nodes| - |external nodes|`, `external_references =
|external nodes|`, `connected_functions` counts connected non-external
nodes, `isolated_functions = total_functions - connected_functions`, and
the modifier counters count nodes with the corresponding flag. -/
def computeStats (nodes : List GraphNode) (edges : List GraphEdge)
    (filesProcessed : Nat) : Stats :=
  let externalCount := (nodes.filter (fun n => n.external)).length
  let total := nodes.length - externalCount
  let connectedCount := (nodes.filter (fun n => !n.external && nodeConnected edges n.id)).length
  { total_functions := total
    displayed_functions := total
    total_calls := edges.length
    connected_functions := connectedCount
    isolated_functions := total - connectedCount
    external_references := externalCount
    files_processed := filesProcessed
    static_functions := (nodes.filter (fun n => n.is_static)).length
    template_functions := (nodes.filter (fun n => n.is_template)).length
    class_methods := (nodes.filter (fun n => n.is_method)).length }

/-- Modelled from the spec: total degree — the number of in-edges plus
the number of out-edges, so a self-loop counts twice — used by the Graph
Sizer's ranking (backend code not present in the visible sources). -/
def degree (edges : List GraphEdge) (id : String) : Nat :=
  (edges.filter (fun e => e.efrom == id)).length +
    (edges.filter (fun e => e.eto == id)).length

/-- Modelled from the spec: the Sizer's ranking order — higher total
degree first; a stable sort keeps earlier discovery order on ties
(§4.5 tie-break). -/
def sizerRank (edges : List GraphEdge) (a b : GraphNode) : Prop :=
  degree edges b.id ≤ degree edges a.id

instance (edges : List GraphEdge) : DecidableRel (sizerRank edges) :=
  fun a b => inferInstanceAs (Decidable (degree edges b.id ≤ degree edges a.id))

instance (edges : List GraphEdge) : IsTotal GraphNode (sizerRank edges) :=
  ⟨fun a b => le_total (degree edges b.id) (degree edges a.id)⟩

instance (edges : List GraphEdge) : IsTrans GraphNode (sizerRank edges) :=
  ⟨fun _ _ _ hab hbc => le_trans hbc hab⟩

/-- Modelled from the spec: `size(graph, max_nodes)` of the Graph Sizer
(backend code not present in the visible sources) — identity when
`|nodes| <= max_nodes`; otherwise rank by total degree descending (stable
on ties), keep the top `max_nodes`, drop edges missing an endpoint, set
`stats.displayed_functions` to the kept count and keep
`stats.total_functions` unchanged. -/
def sizeGraph (g : ProjectGraph) (max_nodes : Nat) : ProjectGraph :=
  if g.nodes.length ≤ max_nodes then g
  else
    let ranked := List.insertionSort (sizerRank g.edges) g.nodes
    let kept := ranked.take max_nodes
    let keptIds := kept.map (fun n => n.id)
    { nodes := kept
      edges := g.edges.filter (fun e => keptIds.contains e.efrom && keptIds.contains e.eto)
      stats := { g.stats with displayed_functions := kept.length }
      warnings := g.warnings
      parse_errors := g.parse_errors
      errors := g.errors }

/-! ## Concrete graphs used by witnesses and counterexamples -/

/-- A connected public function `a` (calls `c`). -/
def demoNodeA : GraphNode :=
  ⟨"a", some "alpha", some "main.c", some 1, true, false, false, false, false, false, false, 1⟩

/-- An isolated public function `b`. -/
def demoNodeB : GraphNode :=
  ⟨"b", some "beta", some "main.c", some 5, false, false, false, false, false, false, false, 1⟩

/-- A connected private function `c` (called by `a`). -/
def demoNodeC : GraphNode :=
  ⟨"c", some "gamma", some "util.c", some 2, true, false, false, false, true, false, false, 1⟩

def demoEdgeAC : GraphEdge := ⟨"a", "c", "main.c"⟩

/-- A small graph whose full-graph stats are the correct §4.4 aggregation
(`connected_functions = 2`, `isolated_functions = 1`), carrying non-fatal
warnings and parse errors. -/
def demoCfg : ProjectGraph :=
  { nodes := [demoNodeA, demoNodeB, demoNodeC]
    edges := [demoEdgeAC]
    stats := computeStats [demoNodeA, demoNodeB, demoNodeC] [demoEdgeAC] 2
    warnings := ["2 files skipped"]
    parse_errors := ["broken.c: parse failure"]
    errors := [] }

/-- A function whose label matches the search term `foo`. -/
def searchNodeM : GraphNode :=
  ⟨"m", some "foo", some "s.c", some 1, true, false, false, false, false, false, false, 1⟩

/-- A caller of `searchNodeM` whose label does not match `foo`. -/
def searchNodeC : GraphNode :=
  ⟨"c", some "bar", some "s.c", some 3, true, false, false, false, false, false, false, 1⟩

def searchEdgeCM : GraphEdge := ⟨"c", "m", "s.c"⟩

/-- Graph where `c` calls `m` and only `m` matches the term `foo`. -/
def searchCfg : ProjectGraph :=
  { nodes := [searchNodeM, searchNodeC]
    edges := [searchEdgeCM]
    stats := computeStats [searchNodeM, searchNodeC] [searchEdgeCM] 1
    warnings := []
    parse_errors := []
    errors := [] }

/-! ## The claims -/

/-- **C1**: for every graph and every node id, the Lineage query
`getConnectedNodes` returns exactly the set containing the node itself
plus every transitive caller of it (breadth-first, following edges
backward only); in particular no node is included merely for being a
callee of the selected node. -/
theorem C1_lineage_exactly_callers (nodeId x : String) (edges : List GraphEdge) :
    x ∈ getConnectedNodes nodeId edges ↔
      x = nodeId ∨ Relation.TransGen (callerStep edges) nodeId x := by
  rw [mem_getConnectedNodes]
  unfold CallerReach
  exact Relation.reflTransGen_iff_eq_or_transGen

/-- **C2**: with no search term, mode `connected` displays exactly the
nodes with `connected = true`, mode `public` exactly those with
`is_private = false`, and mode `all` every node of the graph. -/
theorem C2_filter_modes (cfg : ProjectGraph) (n : GraphNode) :
    (n ∈ displayedNodes cfg FilterMode.connectedOnly "" ↔
      n ∈ cfg.nodes ∧ n.connected = true) ∧
    (n ∈ displayedNodes cfg FilterMode.publicOnly "" ↔
      n ∈ cfg.nodes ∧ n.is_private = false) ∧
    (n ∈ displayedNodes cfg FilterMode.all "" ↔ n ∈ cfg.nodes) := by
  refine ⟨?_, ?_, ?_⟩ <;>
    simp [displayedNodes, filterByMode, List.mem_filter, Bool.not_eq_true']

/-- **C3**: in every rendered view — any graph, filter mode, search term
and selection — every displayed edge has both endpoints among the
displayed node ids. -/
theorem C3_trimming_invariant (cfg : ProjectGraph) (mode : FilterMode)
    (searchTerm : String) (sel : Option String) (e : GraphEdge)
    (he : e ∈ renderEdges cfg mode searchTerm sel) :
    e.efrom ∈ renderNodeIds cfg mode searchTerm sel ∧
    e.eto ∈ renderNodeIds cfg mode searchTerm sel := by
  unfold renderEdges at he
  obtain ⟨-, h⟩ := List.mem_filter.mp he
  rw [Bool.and_eq_true] at h
  exact ⟨contains_mem.mp h.1, contains_mem.mp h.2⟩

theorem C3_trimming_invariant_witness :
    demoEdgeAC ∈ renderEdges demoCfg FilterMode.all "" none ∧
    demoEdgeAC.efrom ∈ renderNodeIds demoCfg FilterMode.all "" none ∧
    demoEdgeAC.eto ∈ renderNodeIds demoCfg FilterMode.all "" none := by
  refine ⟨by decide, ?_⟩
  have := C3_trimming_invariant demoCfg FilterMode.all "" none demoEdgeAC (by decide)
  exact this

/-- **C9**: selection never changes which nodes and edges are displayed —
the displayed node-id set and edge set with any selection equal those with
no selection — and per-node identity, label and shape are selection- and
lineage-independent (selection only alters styling fields). -/
theorem C9_selection_frame_effect (cfg : ProjectGraph) (mode : FilterMode)
    (searchTerm : String) (sel : Option String) :
    renderNodeIds cfg mode searchTerm sel = renderNodeIds cfg mode searchTerm none ∧
    renderEdges cfg mode searchTerm sel = renderEdges cfg mode searchTerm none ∧
    ∀ (n : GraphNode) (connSel : List String),
      (nodeView sel connSel n).id = n.id ∧
      (nodeView sel connSel n).label = (nodeView none [] n).label ∧
      (nodeView sel connSel n).shape = (nodeView none [] n).shape := by
  have hid : renderNodeIds cfg mode searchTerm sel = renderNodeIds cfg mode searchTerm none := by
    unfold renderNodeIds renderNodes
    rw [List.map_map, List.map_map]
    rfl
  refine ⟨hid, ?_, fun n connSel => ⟨rfl, rfl, rfl⟩⟩
  unfold renderEdges
  rw [hid]

/-- **C4** as stated is false on the code: at `demoCfg` (whose full-graph
stats are the correct §4.4 aggregation) with mode `public` the viewer
reports the full graph's `connected_functions` (2) instead of the §4.4
re-derivation over the displayed subset (0, since the only edge is
dropped with its private endpoint). -/
theorem C4_stats_not_rederived_counterexample :
    ¬ ((reportedStats demoCfg FilterMode.publicOnly "" none).connected_functions =
        (computeStats (displayedNodes demoCfg FilterMode.publicOnly "")
          (renderEdges demoCfg FilterMode.publicOnly "" none)
          demoCfg.stats.files_processed).connected_functions) := by
  decide

/-- **C4** (amended): the improved viewer re-derives only the displayed
node and edge counts for the filtered subset; every backend stats field —
in particular `connected_functions` and `isolated_functions` — is carried
over unchanged from the full graph's stats (the `...cfg.stats` spread),
not recomputed over the displayed subset. -/
theorem C4_stats_carried_over (cfg : ProjectGraph) (mode : FilterMode)
    (searchTerm : String) (sel : Option String) :
    (reportedStats cfg mode searchTerm sel).connected_functions =
      cfg.stats.connected_functions ∧
    (reportedStats cfg mode searchTerm sel).isolated_functions =
      cfg.stats.isolated_functions ∧
    (reportedStats cfg mode searchTerm sel).total_functions = cfg.stats.total_functions ∧
    (reportedStats cfg mode searchTerm sel).external_references =
      cfg.stats.external_references ∧
    (reportedStats cfg mode searchTerm sel).files_processed = cfg.stats.files_processed ∧
    (reportedStats cfg mode searchTerm sel).static_functions = cfg.stats.static_functions ∧
    (reportedStats cfg mode searchTerm sel).template_functions =
      cfg.stats.template_functions ∧
    (reportedStats cfg mode searchTerm sel).class_methods = cfg.stats.class_methods ∧
    (reportedStats cfg mode searchTerm sel).displayedNodes =
      (displayedNodes cfg mode searchTerm).length ∧
    (reportedStats cfg mode searchTerm sel).displayedEdges =
      (renderEdges cfg mode searchTerm sel).length := by
  refine ⟨rfl, rfl, rfl, rfl, rfl, rfl, rfl, rfl, ?_, rfl⟩
  simp [reportedStats, renderNodes]

/-- **C5**: for a non-empty search term (and the default `all` filter),
the improved viewer displays exactly the nodes lying in the lineage
(transitive-caller set, including the match itself) of some node whose
label or file contains the lowercased term; consequently every caller of
a matched node that is a node of the graph is part of the search result. -/
theorem C5_search_expands_lineage (cfg : ProjectGraph) (searchTerm : String)
    (h : searchTerm ≠ "") :
    (∀ n : GraphNode, n ∈ displayedNodes cfg FilterMode.all searchTerm ↔
      n ∈ cfg.nodes ∧ ∃ m ∈ cfg.nodes,
        matchesNode (jsToLower searchTerm) m = true ∧
        CallerReach cfg.edges m.id n.id) ∧
    (∀ m ∈ cfg.nodes, matchesNode (jsToLower searchTerm) m = true →
      ∀ c ∈ cfg.nodes, Relation.TransGen (callerStep cfg.edges) m.id c.id →
        c ∈ displayedNodes cfg FilterMode.all searchTerm) := by
  have hbeq : (searchTerm == "") = false := beq_eq_false_iff_ne.mpr h
  have hmem : ∀ n : GraphNode, n ∈ displayedNodes cfg FilterMode.all searchTerm ↔
      n ∈ cfg.nodes ∧ ∃ m ∈ cfg.nodes,
        matchesNode (jsToLower searchTerm) m = true ∧
        CallerReach cfg.edges m.id n.id := by
    intro n
    simp only [displayedNodes, filterByMode, hbeq, Bool.false_eq_true, if_false,
      List.mem_filter, contains_mem, searchIds, List.mem_flatMap,
      mem_getConnectedNodes]
    tauto
  refine ⟨hmem, ?_⟩
  intro m hm hmatch c hc htg
  exact (hmem c).mpr ⟨hc, m, hm, hmatch, htg.to_reflTransGen⟩

theorem C5_search_expands_lineage_witness :
    searchNodeC ∈ displayedNodes searchCfg FilterMode.all "Foo" :=
  (C5_search_expands_lineage searchCfg "Foo" (by decide)).2
    searchNodeM (by decide) (by decide)
    searchNodeC (by decide)
    (Relation.TransGen.single ⟨searchEdgeCM, List.mem_cons_self _ _, rfl, rfl⟩)

/-- A structurally valid, empty-node-list graph carrying warnings and
parse errors. -/
def emptyWarnCfg : ProjectGraph :=
  { nodes := []
    edges := []
    stats := computeStats [] [] 0
    warnings := ["1 file skipped"]
    parse_errors := ["bad.c: parse failure"]
    errors := [] }

/-- **C6** as stated is false on the code: a structurally valid graph with
an empty node list (with warnings and parse errors attached) puts the
viewer into its error state rather than being treated as a success
response. -/
theorem C6_empty_graph_error_counterexample :
    viewerGateError (some emptyWarnCfg) ≠ none := by decide

/-- **C6** (amended): `warnings`/`parse_errors` never by themselves put a
viewer into its error state — for any graph with a non-empty node list
the gate passes, whatever the annotation lists contain — but a
structurally valid graph with an empty node list is put into the error
state (message `cfg.errors[0]` or the default), not treated as success. -/
theorem C6_gate_nonfatal_annotations (g : ProjectGraph) :
    (g.nodes ≠ [] → viewerGateError (some g) = none) ∧
    (g.nodes = [] →
      viewerGateError (some g) =
        some (g.errors.head?.getD "No graph data available")) := by
  constructor
  · intro h
    simp only [viewerGateError]
    cases hn : g.nodes with
    | nil => exact absurd hn h
    | cons a t => rfl
  · intro h
    simp only [viewerGateError]
    rw [h]
    rfl

theorem C6_gate_nonfatal_annotations_witness :
    demoCfg.nodes ≠ [] ∧ viewerGateError (some demoCfg) = none :=
  ⟨by decide, (C6_gate_nonfatal_annotations demoCfg).1 (by decide)⟩

theorem length_filter_not_add {α : Type} (p : α → Bool) (l : List α) :
    (l.filter (fun x => !p x)).length + (l.filter p).length = l.length := by
  induction l with
  | nil => rfl
  | cons a t ih =>
    cases h : p a <;> simp [List.filter_cons, h] <;> omega

/-- **C7** (spec-modelled): the §4.4 stats aggregation satisfies
`connected_functions + isolated_functions = total_functions`, with
`isolated_functions` defined as the difference over the final node set. -/
theorem C7_connectivity_invariant (nodes : List GraphNode) (edges : List GraphEdge)
    (filesProcessed : Nat) :
    (computeStats nodes edges filesProcessed).connected_functions +
      (computeStats nodes edges filesProcessed).isolated_functions =
      (computeStats nodes edges filesProcessed).total_functions := by
  have hsplit := length_filter_not_add (fun n : GraphNode => n.external) nodes
  have hle : (nodes.filter (fun n => !n.external && nodeConnected edges n.id)).length ≤
      (nodes.filter (fun n => !n.external)).length :=
    List.Sublist.length_le
      (List.monotone_filter_right _
        (fun a ha => by rw [Bool.and_eq_true] at ha; exact ha.1))
  show (nodes.filter (fun n => !n.external && nodeConnected edges n.id)).length +
      ((nodes.length - (nodes.filter (fun n => n.external)).length) -
        (nodes.filter (fun n => !n.external && nodeConnected edges n.id)).length) =
      nodes.length - (nodes.filter (fun n => n.external)).length
  omega

/-- **C8** (spec-modelled): the Graph Sizer is the identity on graphs with
at most `max_nodes` nodes; above the bound it keeps exactly `max_nodes`
nodes, each of total degree at least that of every dropped node (kept and
dropped together being a permutation of the original node list), drops
every edge missing a kept endpoint, sets `stats.displayed_functions` to
the kept count and retains the pre-trim `stats.total_functions`. -/
theorem C8_sizer_spec (g : ProjectGraph) (max_nodes : Nat) :
    (g.nodes.length ≤ max_nodes → sizeGraph g max_nodes = g) ∧
    (max_nodes < g.nodes.length →
      (sizeGraph g max_nodes).nodes =
        (List.insertionSort (sizerRank g.edges) g.nodes).take max_nodes ∧
      (sizeGraph g max_nodes).nodes.length = max_nodes ∧
      (∀ a ∈ (sizeGraph g max_nodes).nodes,
        ∀ b ∈ (List.insertionSort (sizerRank g.edges) g.nodes).drop max_nodes,
          degree g.edges b.id ≤ degree g.edges a.id) ∧
      ((sizeGraph g max_nodes).nodes ++
        (List.insertionSort (sizerRank g.edges) g.nodes).drop max_nodes).Perm g.nodes ∧
      (∀ e ∈ (sizeGraph g max_nodes).edges,
        e.efrom ∈ (sizeGraph g max_nodes).nodes.map (fun n => n.id) ∧
        e.eto ∈ (sizeGraph g max_nodes).nodes.map (fun n => n.id)) ∧
      (sizeGraph g max_nodes).stats.displayed_functions = max_nodes ∧
      (sizeGraph g max_nodes).stats.total_functions = g.stats.total_functions) := by
  constructor
  · intro h
    unfold sizeGraph
    rw [if_pos h]
  · intro h
    have hnotle : ¬ g.nodes.length ≤ max_nodes := not_le.mpr h
    have hlen : (List.insertionSort (sizerRank g.edges) g.nodes).length = g.nodes.length :=
      (List.perm_insertionSort (sizerRank g.edges) g.nodes).length_eq
    have hnodes : (sizeGraph g max_nodes).nodes =
        (List.insertionSort (sizerRank g.edges) g.nodes).take max_nodes := by
      unfold sizeGraph
      rw [if_neg hnotle]
    have hlen2 : ((List.insertionSort (sizerRank g.edges) g.nodes).take max_nodes).length
        = max_nodes := by
      rw [List.length_take, hlen]
      exact Nat.min_eq_left (le_of_lt h)
    have hsorted : List.Pairwise (sizerRank g.edges)
        (List.insertionSort (sizerRank g.edges) g.nodes) :=
      List.sorted_insertionSort (sizerRank g.edges) g.nodes
    have hdom : ∀ a ∈ (List.insertionSort (sizerRank g.edges) g.nodes).take max_nodes,
        ∀ b ∈ (List.insertionSort (sizerRank g.edges) g.nodes).drop max_nodes,
          degree g.edges b.id ≤ degree g.edges a.id := by
      have h2 := hsorted
      rw [← List.take_append_drop max_nodes
        (List.insertionSort (sizerRank g.edges) g.nodes)] at h2
      exact fun a ha b hb => (List.pairwise_append.mp h2).2.2 a ha b hb
    have hperm : ((List.insertionSort (sizerRank g.edges) g.nodes).take max_nodes ++
        (List.insertionSort (sizerRank g.edges) g.nodes).drop max_nodes).Perm g.nodes := by
      rw [List.take_append_drop]
      exact List.perm_insertionSort _ _
    have hedges : ∀ e ∈ (sizeGraph g max_nodes).edges,
        e.efrom ∈ (sizeGraph g max_nodes).nodes.map (fun n => n.id) ∧
        e.eto ∈ (sizeGraph g max_nodes).nodes.map (fun n => n.id) := by
      intro e hee
      unfold sizeGraph at hee
      rw [if_neg hnotle] at hee
      obtain ⟨-, hb⟩ := List.mem_filter.mp hee
      rw [Bool.and_eq_true] at hb
      rw [hnodes]
      exact ⟨contains_mem.mp hb.1, contains_mem.mp hb.2⟩
    refine ⟨hnodes, by rw [hnodes]; exact hlen2,
      fun a ha b hb => hdom a (by rw [hnodes] at ha; exact ha) b hb,
      by rw [hnodes]; exact hperm, hedges, ?_, ?_⟩
    · unfold sizeGraph
      rw [if_neg hnotle]
      exact hlen2
    · unfold sizeGraph
      rw [if_neg hnotle]

theorem C8_sizer_spec_witness :
    1 < demoCfg.nodes.length ∧ (sizeGraph demoCfg 1).nodes.length = 1 ∧
    (sizeGraph demoCfg 1).stats.total_functions = demoCfg.stats.total_functions := by
  have h := (C8_sizer_spec demoCfg 1).2 (by decide)
  exact ⟨by decide, h.2.1, h.2.2.2.2.2.2⟩

theorem roots_empty_iff (nodeIds : List String) (edges : List GraphEdge) :
    rootsOf nodeIds edges = [] ↔ ∀ x ∈ nodeIds, ∃ e ∈ edges, e.eto = x := by
  unfold rootsOf
  rw [List.filter_eq_nil_iff]
  constructor
  · intro h x hx
    have h2 := h x hx
    rw [Bool.not_eq_true, Bool.not_eq_false'] at h2
    obtain ⟨e, he, heq⟩ := List.any_eq_true.mp h2
    exact ⟨e, he, beq_iff_eq.mp heq⟩
  · intro h x hx hcontra
    obtain ⟨e, he, heq⟩ := h x hx
    rw [Bool.not_eq_true'] at hcontra
    have : hasIncomingIds edges x = true :=
      List.any_eq_true.mpr ⟨e, he, beq_iff_eq.mpr heq⟩
    rw [this] at hcontra
    cases hcontra

/-- **C10**: `calculateMaxDepth` returns 0 on an empty node list; when
every node has an incoming edge among the valid edges (no roots) it
returns the total node count; otherwise it is the maximal depth reached by
the breadth-first traversal seeded with all root nodes at depth 1,
incrementing the depth per traversed edge and visiting each node at most
once. -/
theorem C10_calculateMaxDepth_cases (nodeIds : List String) (edges : List GraphEdge) :
    (nodeIds = [] → calculateMaxDepth nodeIds edges = 0) ∧
    (nodeIds ≠ [] → (∀ x ∈ nodeIds, ∃ e ∈ edges, e.eto = x) →
      calculateMaxDepth nodeIds edges = nodeIds.length) ∧
    (nodeIds ≠ [] → ¬ (∀ x ∈ nodeIds, ∃ e ∈ edges, e.eto = x) →
      calculateMaxDepth nodeIds edges =
        depthBfs (adjList nodeIds edges)
          ((depthUniv nodeIds edges).length * (edges.length + 1) +
            (rootsOf nodeIds edges).length + 1)
          [] 0 ((rootsOf nodeIds edges).map (fun r => (r, 1)))) := by
  refine ⟨?_, ?_, ?_⟩
  · intro h
    unfold calculateMaxDepth
    rw [if_pos (by rw [h]; rfl)]
  · intro h hall
    have hr : rootsOf nodeIds edges = [] := (roots_empty_iff nodeIds edges).mpr hall
    unfold calculateMaxDepth
    rw [if_neg (fun hl => h (List.length_eq_zero.mp hl)),
      if_pos (by rw [hr]; rfl)]
  · intro h hnall
    have hr : rootsOf nodeIds edges ≠ [] :=
      fun hempty => hnall ((roots_empty_iff nodeIds edges).mp hempty)
    unfold calculateMaxDepth
    rw [if_neg (fun hl => h (List.length_eq_zero.mp hl)),
      if_neg (fun hl => hr (List.length_eq_zero.mp hl))]

theorem C10_calculateMaxDepth_cases_witness :
    calculateMaxDepth ["a"] [⟨"a", "a", "f"⟩] = 1 :=
  (C10_calculateMaxDepth_cases ["a"] [⟨"a", "a", "f"⟩]).2.1 (by decide) (by decide)
